import Mathlib

/-!
Verification of the MIDI timeline builder, playback clock, visible-window
selector and sound-engine volume control of the piano-visualizer program.

The definitions below are a shallow embedding of the Python source:
`midi_parser.py` (MIDIParser.parse, MIDIParser._ticks_to_ms), `main.py`
(PianoVisualizerApp playback / trigger / window logic) and
`sound_engine.py` (SoundEngine.set_volume).  Python floats are modelled by
rationals; MIDI ticks by integers (mido delta times are ints); the Python
dict of active notes by an association list with replace-on-insert.
-/

/-- Hand assignment of a note, as in midi_parser.Note.hand. -/
inductive Hand where
  | left
  | right
  | unknown
  deriving DecidableEq, Repr

/-- Embedding of the midi_parser.Note dataclass.  Times are milliseconds. -/
structure Note where
  note : Nat
  velocity : Nat
  start_time : ℚ
  end_time : ℚ
  channel : Nat
  hand : Hand
  track : Nat
  deriving DecidableEq, Repr

/-- Kind of a MIDI message relevant to MIDIParser.parse; `meta` stands for
every message type the parser ignores. -/
inductive MsgKind where
  | note_on (note channel velocity : Nat)
  | note_off (note channel velocity : Nat)
  | set_tempo (tempo : Nat)
  | meta
  deriving DecidableEq, Repr

/-- A MIDI track message: a kind plus the mido delta time in ticks. -/
structure Msg where
  kind : MsgKind
  time : Int
  deriving DecidableEq, Repr

/-- Association list modelling the Python dict track_active_notes:
key (note, channel), value (start tick, velocity). -/
abbrev ActiveList := List ((Nat × Nat) × (Int × Nat))

/-- Dict assignment track_active_notes[k] = v: replace the entry if the key
is present, else append. -/
def insertActive (k : Nat × Nat) (v : Int × Nat) : ActiveList → ActiveList
  | [] => [(k, v)]
  | e :: es => if e.1 = k then (k, v) :: es else e :: insertActive k v es

/-- Dict lookup track_active_notes[k] (first matching entry). -/
def lookupActive (k : Nat × Nat) : ActiveList → Option (Int × Nat)
  | [] => none
  | e :: es => if e.1 = k then some e.2 else lookupActive k es

/-- Dict deletion del track_active_notes[k] (removes the first matching
entry; insertActive keeps keys unique). -/
def eraseActive (k : Nat × Nat) : ActiveList → ActiveList
  | [] => []
  | e :: es => if e.1 = k then es else e :: eraseActive k es

/-- Embedding of MIDIParser._ticks_to_ms:
(ticks / ticks_per_beat) * (tempo / 1000), in exact rational arithmetic. -/
def ticksToMs (tpb tempo : Nat) (ticks : Int) : ℚ :=
  ((ticks : ℚ) / (tpb : ℚ)) * ((tempo : ℚ) / 1000)

/-- Hand cascade of MIDIParser.parse: channel_hand_map (0 ↦ right,
1 ↦ left), falling back to the pitch heuristic (below 60 ↦ left). -/
def channelHand (channel note : Nat) : Hand :=
  if channel = 0 then Hand.right
  else if channel = 1 then Hand.left
  else if note < 60 then Hand.left else Hand.right

/-- Per-track mutable state of the parse loop: cumulative_ticks and
track_active_notes. -/
structure TrackState where
  cumulative : Int
  active : ActiveList
  deriving DecidableEq, Repr

/-- Parser state surviving across tracks: self.tempo, self.notes,
self.total_time. -/
structure ParseState where
  tempo : Nat
  notes : List Note
  total_time : ℚ
  deriving DecidableEq, Repr

/-- The Note object built at a note-off, with both endpoints converted by
the tempo current at that moment. -/
def mkNote (tpb idx tempo note ch vel : Nat) (startTick endTick : Int) : Note :=
  { note := note
    velocity := vel
    start_time := ticksToMs tpb tempo startTick
    end_time := ticksToMs tpb tempo endTick
    channel := ch
    hand := channelHand ch note
    track := idx }

/-- The note-off branch of MIDIParser.parse: close the pending interval for
(note, channel) if one exists, append the Note, bump total_time, and delete
the active entry. -/
def closeNote (tpb idx : Nat) (ps : ParseState) (ts : TrackState)
    (note ch : Nat) : ParseState × TrackState :=
  match lookupActive (note, ch) ts.active with
  | none => (ps, ts)
  | some (startTick, vel) =>
      let n := mkNote tpb idx ps.tempo note ch vel startTick ts.cumulative
      { ps with
          notes := ps.notes ++ [n]
          total_time := if n.end_time > ps.total_time then n.end_time else ps.total_time }
      |> fun ps2 => (ps2, { ts with active := eraseActive (note, ch) ts.active })

/-- One iteration of the inner message loop of MIDIParser.parse. -/
def stepMsg (tpb idx : Nat) : ParseState × TrackState → Msg → ParseState × TrackState
  | (ps, ts), m =>
    let cum := ts.cumulative + m.time
    match m.kind with
    | MsgKind.set_tempo t => ({ ps with tempo := t }, { ts with cumulative := cum })
    | MsgKind.note_on note ch vel =>
        if vel > 0 then
          (ps, { cumulative := cum, active := insertActive (note, ch) (cum, vel) ts.active })
        else
          closeNote tpb idx ps { cumulative := cum, active := ts.active } note ch
    | MsgKind.note_off note ch _ =>
        closeNote tpb idx ps { cumulative := cum, active := ts.active } note ch
    | MsgKind.meta => (ps, { ts with cumulative := cum })

/-- One track scan of MIDIParser.parse: cumulative_ticks restarts at 0 and
track_active_notes restarts empty; unclosed active entries are discarded. -/
def runTrack (tpb idx : Nat) (ps : ParseState) (track : List Msg) : ParseState :=
  (track.foldl (stepMsg tpb idx) (ps, { cumulative := 0, active := [] })).1

/-- The outer track loop of MIDIParser.parse, threading ParseState. -/
def runTracks (tpb : Nat) : Nat → ParseState → List (List Msg) → ParseState
  | _, ps, [] => ps
  | idx, ps, t :: ts => runTracks tpb (idx + 1) (runTrack tpb idx ps t) ts

/-- Stable insertion placing n after every already-present note whose
start_time is not greater. -/
def insertNote (n : Note) : List Note → List Note
  | [] => [n]
  | m :: ms =>
      if m.start_time ≤ n.start_time then m :: insertNote n ms else n :: m :: ms

/-- Stable sort by start_time, modelling self.notes.sort(key=start_time)
(Python list.sort is stable). -/
def sortNotes (l : List Note) : List Note :=
  l.foldl (fun acc n => insertNote n acc) []

/-- What MIDIParser.parse exposes: the sorted note list and the total
duration reported by get_total_duration. -/
structure ParseResult where
  notes : List Note
  total_time : ℚ
  deriving DecidableEq, Repr

/-- Embedding of MIDIParser.parse on a freshly constructed parser:
tempo seeded 500000, notes empty, total_time 0; tracks scanned in order,
then the note list sorted stably by start_time. -/
def parse (tpb : Nat) (tracks : List (List Msg)) : ParseResult :=
  let ps := runTracks tpb 0 { tempo := 500000, notes := [], total_time := 0 } tracks
  { notes := sortNotes ps.notes, total_time := ps.total_time }

/-- Tempo value after scanning a track: updated only by set_tempo messages,
never re-seeded (companion to the parse loop, used to state that the tempo
carries across tracks). -/
def trackTempo (tempo : Nat) : List Msg → Nat
  | [] => tempo
  | m :: ms =>
    match m.kind with
    | MsgKind.set_tempo t => trackTempo t ms
    | _ => trackTempo tempo ms

/-- Notes emitted while scanning the remainder of one track from a given
running tempo, cumulative tick count and active table.  Mirrors the message
dispatch of stepMsg but returns the emitted notes as a list. -/
def trackEmits (tpb idx : Nat) : Nat → Int → ActiveList → List Msg → List Note
  | _, _, _, [] => []
  | tempo, cumulative, act, m :: ms =>
    let cum := cumulative + m.time
    match m.kind with
    | MsgKind.set_tempo t => trackEmits tpb idx t cum act ms
    | MsgKind.note_on note ch vel =>
        if vel > 0 then
          trackEmits tpb idx tempo cum (insertActive (note, ch) (cum, vel) act) ms
        else
          match lookupActive (note, ch) act with
          | none => trackEmits tpb idx tempo cum act ms
          | some (s, v) =>
              mkNote tpb idx tempo note ch v s cum ::
                trackEmits tpb idx tempo cum (eraseActive (note, ch) act) ms
    | MsgKind.note_off note ch _ =>
        match lookupActive (note, ch) act with
        | none => trackEmits tpb idx tempo cum act ms
        | some (s, v) =>
            mkNote tpb idx tempo note ch v s cum ::
              trackEmits tpb idx tempo cum (eraseActive (note, ch) act) ms
    | MsgKind.meta => trackEmits tpb idx tempo cum act ms

/-- Boolean test: does this emitted note carry the given (pitch, channel)
key. -/
def noteKeyP (p c : Nat) (n : Note) : Bool :=
  n.note == p && n.channel == c

/-- Boolean test: is this message a note-off for the given (pitch, channel),
counting note-on with velocity 0 as a note-off, exactly as the parse loop
does. -/
def isOffFor (p c : Nat) (m : Msg) : Bool :=
  match m.kind with
  | MsgKind.note_off nt ch _ => nt == p && ch == c
  | MsgKind.note_on nt ch v => nt == p && ch == c && v == 0
  | _ => false

/-- Boolean test used as a side condition for the duration invariant: a
set_tempo message must carry a positive tempo (any other message passes). -/
def tempoPos (m : Msg) : Bool :=
  match m.kind with
  | MsgKind.set_tempo t => t > 0
  | _ => true

/-- Application state of main.PianoVisualizerApp relevant to playback:
self.notes, self.total_time, self.current_time, self.playing, self.speed
and self.start_time (the wall-clock reference instant). -/
structure AppState where
  notes : List Note
  total_time : ℚ
  current_time : ℚ
  playing : Bool
  speed : ℚ
  start_time : ℚ
  deriving DecidableEq, Repr

/-- Embedding of PianoVisualizerApp._stop_playback (the stop_all_notes call
to the sound engine has no effect on this state). -/
def stop_playback (s : AppState) : AppState :=
  { s with playing := false, current_time := 0 }

/-- Embedding of PianoVisualizerApp._start_playback at wall-clock instant
now (milliseconds). -/
def start_playback (s : AppState) (now : ℚ) : AppState :=
  if s.notes = [] then s
  else { s with playing := true, start_time := now - s.current_time / s.speed }

/-- Embedding of PianoVisualizerApp._on_speed_change: it only stores the
new speed; the reference instant start_time is left untouched. -/
def on_speed_change (s : AppState) (speed : ℚ) : AppState :=
  { s with speed := speed }

/-- Embedding of the clock part of PianoVisualizerApp._update_playback at
wall-clock instant now: recompute current_time from the reference instant
and the speed, then auto-stop at end of piece. -/
def update_playback (s : AppState) (now : ℚ) : AppState :=
  if s.playing = false ∨ s.notes = [] then s
  else
    let s1 := { s with current_time := (now - s.start_time) * s.speed }
    if s1.current_time ≥ s1.total_time then stop_playback s1 else s1

/-- Embedding of PianoVisualizerApp.load_midi_file: the decoded file is
either none (file not found or decoder failure, load_file returns False) or
some (tracks, ticks-per-beat).  Playback is stopped first; on failure the
function returns False with the state otherwise untouched; on success the
parsed notes and duration replace the session and the position resets. -/
def load_midi_file (s : AppState) (decoded : Option (List (List Msg) × Nat)) :
    AppState × Bool :=
  let s1 := stop_playback s
  match decoded with
  | none => (s1, false)
  | some (tracks, tpb) =>
      let r := parse tpb tracks
      ({ s1 with notes := r.notes, total_time := r.total_time, current_time := 0 }, true)

/-- Embedding of PianoVisualizerApp._get_visible_notes: the render window
keeps notes with start_time at most 3000 ms ahead and end_time at least
1000 ms behind the current position. -/
def get_visible_notes (notes : List Note) (current : ℚ) : List Note :=
  if notes = [] then []
  else notes.filter fun n =>
    decide (n.start_time ≤ current + 3000) && decide (n.end_time ≥ current - 1000)

/-- Sounding flag of one note in _play_current_notes, mirroring the Python
attribute trick: absent (hasattr false), sounding (attribute True) or
stopped (attribute False). -/
inductive PlayFlag where
  | absent
  | sounding
  | stopped
  deriving DecidableEq, Repr

/-- Trigger bookkeeping for one note: its flag plus counters of play and
stop calls issued to the sound engine. -/
structure TrigState where
  flag : PlayFlag
  plays : Nat
  stops : Nat
  deriving DecidableEq, Repr

/-- One frame of _play_current_notes restricted to a single note with the
given interval, at current time t: play when t lies in the 50 ms window
past start_time and no flag exists yet; otherwise stop when t has reached
end_time and the note is flagged sounding. -/
def trigStep (start_t end_t : ℚ) (st : TrigState) (t : ℚ) : TrigState :=
  if start_t ≤ t ∧ t ≤ start_t + 50 ∧ st.flag = PlayFlag.absent then
    { st with flag := PlayFlag.sounding, plays := st.plays + 1 }
  else if end_t ≤ t ∧ st.flag = PlayFlag.sounding then
    { st with flag := PlayFlag.stopped, stops := st.stops + 1 }
  else st

/-- Run of _play_current_notes for one note over a sequence of frame
times. -/
def trigRun (start_t end_t : ℚ) (st : TrigState) (ts : List ℚ) : TrigState :=
  ts.foldl (trigStep start_t end_t) st

/-- State of sound_engine.SoundEngine relevant to the master volume. -/
structure SoundEngineState where
  volume : ℚ
  muted : Bool
  deriving DecidableEq, Repr

/-- Embedding of SoundEngine.set_volume: store max(0.0, min(1.0, v)). -/
def set_volume (e : SoundEngineState) (v : ℚ) : SoundEngineState :=
  { e with volume := max 0 (min 1 v) }

lemma mem_insertActive {e : (Nat × Nat) × (Int × Nat)} {k : Nat × Nat}
    {v : Int × Nat} : ∀ {l : ActiveList}, e ∈ insertActive k v l → e = (k, v) ∨ e ∈ l := by
  intro l
  induction l with
  | nil => simp [insertActive]
  | cons a as ih =>
      simp only [insertActive]
      split
      · intro h
        rcases List.mem_cons.mp h with h | h
        · exact Or.inl h
        · exact Or.inr (List.mem_cons_of_mem _ h)
      · intro h
        rcases List.mem_cons.mp h with h | h
        · exact Or.inr (h ▸ List.mem_cons_self a as)
        · rcases ih h with h | h
          · exact Or.inl h
          · exact Or.inr (List.mem_cons_of_mem _ h)

lemma lookupActive_mem {k : Nat × Nat} {v : Int × Nat} :
    ∀ {l : ActiveList}, lookupActive k l = some v → (k, v) ∈ l := by
  intro l
  induction l with
  | nil => simp [lookupActive]
  | cons a as ih =>
      simp only [lookupActive]
      split
      · rename_i h
        intro hv
        obtain ⟨a1, a2⟩ := a
        cases hv
        simp only at h
        subst h
        exact List.mem_cons_self _ _
      · intro hv
        exact List.mem_cons_of_mem _ (ih hv)

lemma mem_eraseActive {e : (Nat × Nat) × (Int × Nat)} {k : Nat × Nat} :
    ∀ {l : ActiveList}, e ∈ eraseActive k l → e ∈ l := by
  intro l
  induction l with
  | nil => simp [eraseActive]
  | cons a as ih =>
      simp only [eraseActive]
      split
      · intro h; exact List.mem_cons_of_mem _ h
      · intro h
        rcases List.mem_cons.mp h with h | h
        · exact h ▸ List.mem_cons_self a as
        · exact List.mem_cons_of_mem _ (ih h)

lemma ticksToMs_mono (tpb tempo : Nat) {a b : Int} (h : a ≤ b) :
    ticksToMs tpb tempo a ≤ ticksToMs tpb tempo b := by
  unfold ticksToMs
  apply mul_le_mul_of_nonneg_right _ (by positivity)
  rcases Nat.eq_zero_or_pos tpb with h0 | h0
  · simp [h0]
  · have hq : (0 : ℚ) < (tpb : ℚ) := by exact_mod_cast h0
    exact (div_le_div_iff_of_pos_right hq).mpr (by exact_mod_cast h)

lemma foldl_stepMsg_decomp (tpb idx : Nat) :
    ∀ (msgs : List Msg) (ps : ParseState) (ts : TrackState),
      (msgs.foldl (stepMsg tpb idx) (ps, ts)).1.notes
          = ps.notes ++ trackEmits tpb idx ps.tempo ts.cumulative ts.active msgs
        ∧ (msgs.foldl (stepMsg tpb idx) (ps, ts)).1.tempo = trackTempo ps.tempo msgs := by
  intro msgs
  induction msgs with
  | nil => intro ps ts; simp [trackEmits, trackTempo]
  | cons m ms ih =>
      intro ps ts
      obtain ⟨k, time⟩ := m
      rw [List.foldl_cons]
      cases k with
      | set_tempo t =>
          have h := ih { ps with tempo := t } { ts with cumulative := ts.cumulative + time }
          simpa [stepMsg, trackEmits, trackTempo] using h
      | meta =>
          have h := ih ps { ts with cumulative := ts.cumulative + time }
          simpa [stepMsg, trackEmits, trackTempo] using h
      | note_on note ch vel =>
          by_cases hv : vel > 0
          · have h := ih ps
              ⟨ts.cumulative + time,
               insertActive (note, ch) (ts.cumulative + time, vel) ts.active⟩
            simpa [stepMsg, trackEmits, trackTempo, hv] using h
          · cases hl : lookupActive (note, ch) ts.active with
            | none =>
                have h := ih ps ⟨ts.cumulative + time, ts.active⟩
                simpa [stepMsg, closeNote, trackEmits, trackTempo, hv, hl] using h
            | some sv =>
                obtain ⟨s, v⟩ := sv
                have h := ih
                  { ps with
                      notes := ps.notes ++
                        [mkNote tpb idx ps.tempo note ch v s (ts.cumulative + time)]
                      total_time :=
                        if (mkNote tpb idx ps.tempo note ch v s (ts.cumulative + time)).end_time
                             > ps.total_time then
                          (mkNote tpb idx ps.tempo note ch v s (ts.cumulative + time)).end_time
                        else ps.total_time }
                  ⟨ts.cumulative + time, eraseActive (note, ch) ts.active⟩
                simp [stepMsg, closeNote, trackEmits, trackTempo, hv, hl] at h ⊢
                rw [h.1, h.2]
                simp
      | note_off note ch vel =>
          cases hl : lookupActive (note, ch) ts.active with
          | none =>
              have h := ih ps ⟨ts.cumulative + time, ts.active⟩
              simpa [stepMsg, closeNote, trackEmits, trackTempo, hl] using h
          | some sv =>
              obtain ⟨s, v⟩ := sv
              have h := ih
                { ps with
                    notes := ps.notes ++
                      [mkNote tpb idx ps.tempo note ch v s (ts.cumulative + time)]
                    total_time :=
                      if (mkNote tpb idx ps.tempo note ch v s (ts.cumulative + time)).end_time
                           > ps.total_time then
                        (mkNote tpb idx ps.tempo note ch v s (ts.cumulative + time)).end_time
                      else ps.total_time }
                ⟨ts.cumulative + time, eraseActive (note, ch) ts.active⟩
              simp [stepMsg, closeNote, trackEmits, trackTempo, hl] at h ⊢
              rw [h.1, h.2]
              simp

lemma runTrack_notes (tpb idx : Nat) (ps : ParseState) (track : List Msg) :
    (runTrack tpb idx ps track).notes
      = ps.notes ++ trackEmits tpb idx ps.tempo 0 [] track :=
  (foldl_stepMsg_decomp tpb idx track ps ⟨0, []⟩).1

lemma runTrack_tempo (tpb idx : Nat) (ps : ParseState) (track : List Msg) :
    (runTrack tpb idx ps track).tempo = trackTempo ps.tempo track :=
  (foldl_stepMsg_decomp tpb idx track ps ⟨0, []⟩).2

lemma runTracks_tempo (tpb : Nat) :
    ∀ (tracks : List (List Msg)) (idx : Nat) (ps : ParseState),
      (runTracks tpb idx ps tracks).tempo = tracks.foldl trackTempo ps.tempo := by
  intro tracks
  induction tracks with
  | nil => intro idx ps; simp [runTracks]
  | cons t ts ih =>
      intro idx ps
      rw [List.foldl_cons]
      show (runTracks tpb (idx + 1) (runTrack tpb idx ps t) ts).tempo = _
      rw [ih (idx + 1) (runTrack tpb idx ps t), runTrack_tempo]

lemma mem_insertNote {a n : Note} :
    ∀ {l : List Note}, a ∈ insertNote n l ↔ a = n ∨ a ∈ l := by
  intro l
  induction l with
  | nil => simp [insertNote]
  | cons m ms ih =>
      simp only [insertNote]
      split
      · simp [ih]
        tauto
      · simp

lemma mem_sortNotes {a : Note} {l : List Note} : a ∈ sortNotes l ↔ a ∈ l := by
  have aux : ∀ (l : List Note) (acc : List Note),
      a ∈ l.foldl (fun acc n => insertNote n acc) acc ↔ a ∈ acc ∨ a ∈ l := by
    intro l
    induction l with
    | nil => intro acc; simp
    | cons n ns ih =>
        intro acc
        rw [List.foldl_cons, ih]
        simp [mem_insertNote]
        tauto
  simpa using aux l []

lemma countP_insertNote (q : Note → Bool) (n : Note) :
    ∀ (l : List Note), (insertNote n l).countP q
      = l.countP q + (if q n then 1 else 0) := by
  intro l
  induction l with
  | nil => simp [insertNote, List.countP_cons]
  | cons m ms ih =>
      simp only [insertNote]
      split
      · simp [List.countP_cons, ih]
        omega
      · simp [List.countP_cons]

lemma countP_sortNotes (q : Note → Bool) (l : List Note) :
    (sortNotes l).countP q = l.countP q := by
  have aux : ∀ (l : List Note) (acc : List Note),
      (l.foldl (fun acc n => insertNote n acc) acc).countP q
        = acc.countP q + l.countP q := by
    intro l
    induction l with
    | nil => intro acc; simp
    | cons n ns ih =>
        intro acc
        rw [List.foldl_cons, ih, countP_insertNote, List.countP_cons]
        omega
  simpa using aux l []

lemma countP_trackEmits_le (tpb idx p c : Nat) :
    ∀ (msgs : List Msg) (tempo : Nat) (cum : Int) (act : ActiveList),
      (trackEmits tpb idx tempo cum act msgs).countP (noteKeyP p c)
        ≤ msgs.countP (isOffFor p c) := by
  intro msgs
  induction msgs with
  | nil => intro tempo cum act; simp [trackEmits]
  | cons m ms ih =>
      intro tempo cum act
      obtain ⟨k, time⟩ := m
      cases k with
      | set_tempo t =>
          simp only [trackEmits, List.countP_cons, isOffFor]
          have := ih t (cum + time) act
          omega
      | meta =>
          simp only [trackEmits, List.countP_cons, isOffFor]
          have := ih tempo (cum + time) act
          omega
      | note_on note ch vel =>
          by_cases hv : vel > 0
          · have hoff : isOffFor p c ⟨MsgKind.note_on note ch vel, time⟩ = false := by
              simp [isOffFor]
              omega
            simp only [trackEmits, List.countP_cons, hoff, hv, if_true, if_pos hv]
            have := ih tempo (cum + time)
              (insertActive (note, ch) (cum + time, vel) act)
            simp only [if_pos hv] at *
            omega
          · have hv0 : vel = 0 := by omega
            subst hv0
            cases hl : lookupActive (note, ch) act with
            | none =>
                simp only [trackEmits, List.countP_cons, hl]
                have := ih tempo (cum + time) act
                simp only [gt_iff_lt, lt_self_iff_false, if_false] at *
                simp [hl] at *
                omega
            | some sv =>
                obtain ⟨s, v⟩ := sv
                simp only [trackEmits, List.countP_cons, hl, gt_iff_lt,
                  lt_self_iff_false, if_false]
                have hkey : noteKeyP p c (mkNote tpb idx tempo note ch v s (cum + time))
                    = isOffFor p c ⟨MsgKind.note_on note ch 0, time⟩ := by
                  simp [noteKeyP, isOffFor, mkNote]
                have := ih tempo (cum + time) (eraseActive (note, ch) act)
                rw [hkey]
                omega
      | note_off note ch vel =>
          cases hl : lookupActive (note, ch) act with
          | none =>
              simp only [trackEmits, List.countP_cons, hl]
              have := ih tempo (cum + time) act
              omega
          | some sv =>
              obtain ⟨s, v⟩ := sv
              simp only [trackEmits, List.countP_cons, hl]
              have hkey : noteKeyP p c (mkNote tpb idx tempo note ch v s (cum + time))
                  = isOffFor p c ⟨MsgKind.note_off note ch vel, time⟩ := by
                simp [noteKeyP, isOffFor, mkNote]
              have := ih tempo (cum + time) (eraseActive (note, ch) act)
              rw [hkey]
              omega

lemma countP_runTracks_le (tpb p c : Nat) :
    ∀ (tracks : List (List Msg)) (idx : Nat) (ps : ParseState),
      (runTracks tpb idx ps tracks).notes.countP (noteKeyP p c)
        ≤ ps.notes.countP (noteKeyP p c)
          + (tracks.map fun tr => tr.countP (isOffFor p c)).sum := by
  intro tracks
  induction tracks with
  | nil => intro idx ps; simp [runTracks]
  | cons t ts ih =>
      intro idx ps
      show (runTracks tpb (idx + 1) (runTrack tpb idx ps t) ts).notes.countP _ ≤ _
      have h1 := ih (idx + 1) (runTrack tpb idx ps t)
      rw [runTrack_notes, List.countP_append] at h1
      have h2 := countP_trackEmits_le tpb idx p c t ps.tempo 0 []
      simp only [List.map_cons, List.sum_cons]
      omega

lemma stepMsg_inv (tpb idx : Nat) (ps : ParseState) (ts : TrackState) (m : Msg)
    (hm : 0 ≤ m.time)
    (hnotes : ∀ n ∈ ps.notes, n.start_time ≤ n.end_time)
    (hact : ∀ e ∈ ts.active, e.2.1 ≤ ts.cumulative) :
    (∀ n ∈ (stepMsg tpb idx (ps, ts) m).1.notes, n.start_time ≤ n.end_time)
      ∧ ∀ e ∈ (stepMsg tpb idx (ps, ts) m).2.active,
          e.2.1 ≤ (stepMsg tpb idx (ps, ts) m).2.cumulative := by
  have hcum : ts.cumulative ≤ ts.cumulative + m.time := by omega
  obtain ⟨k, time⟩ := m
  simp only at hcum
  cases k with
  | set_tempo t =>
      refine ⟨by simpa [stepMsg] using hnotes, ?_⟩
      intro e he
      simp only [stepMsg] at he ⊢
      exact le_trans (hact e he) hcum
  | meta =>
      refine ⟨by simpa [stepMsg] using hnotes, ?_⟩
      intro e he
      simp only [stepMsg] at he ⊢
      exact le_trans (hact e he) hcum
  | note_on note ch vel =>
      by_cases hv : vel > 0
      · refine ⟨by simpa [stepMsg, hv] using hnotes, ?_⟩
        intro e he
        simp only [stepMsg, if_pos hv] at he ⊢
        rcases mem_insertActive he with h | h
        · subst h; exact le_refl _
        · exact le_trans (hact e h) hcum
      · cases hl : lookupActive (note, ch) ts.active with
        | none =>
            constructor
            · simpa [stepMsg, hv, closeNote, hl] using hnotes
            · intro e he
              simp only [stepMsg, if_neg hv, closeNote, hl] at he ⊢
              exact le_trans (hact e he) hcum
        | some sv =>
            obtain ⟨s, v⟩ := sv
            have hsm : s ≤ ts.cumulative := hact _ (lookupActive_mem hl)
            constructor
            · intro n hn
              simp only [stepMsg, if_neg hv, closeNote, hl] at hn
              rcases List.mem_append.mp hn with h | h
              · exact hnotes n h
              · rcases List.mem_singleton.mp h with rfl
                exact ticksToMs_mono tpb ps.tempo (le_trans hsm hcum)
            · intro e he
              simp only [stepMsg, if_neg hv, closeNote, hl] at he ⊢
              exact le_trans (hact e (mem_eraseActive he)) hcum
  | note_off note ch vel =>
      cases hl : lookupActive (note, ch) ts.active with
      | none =>
          constructor
          · simpa [stepMsg, closeNote, hl] using hnotes
          · intro e he
            simp only [stepMsg, closeNote, hl] at he ⊢
            exact le_trans (hact e he) hcum
      | some sv =>
          obtain ⟨s, v⟩ := sv
          have hsm : s ≤ ts.cumulative := hact _ (lookupActive_mem hl)
          constructor
          · intro n hn
            simp only [stepMsg, closeNote, hl] at hn
            rcases List.mem_append.mp hn with h | h
            · exact hnotes n h
            · rcases List.mem_singleton.mp h with rfl
              exact ticksToMs_mono tpb ps.tempo (le_trans hsm hcum)
          · intro e he
            simp only [stepMsg, closeNote, hl] at he ⊢
            exact le_trans (hact e (mem_eraseActive he)) hcum

lemma foldl_stepMsg_inv (tpb idx : Nat) :
    ∀ (msgs : List Msg) (ps : ParseState) (ts : TrackState),
      (∀ m ∈ msgs, 0 ≤ m.time) →
      (∀ n ∈ ps.notes, n.start_time ≤ n.end_time) →
      (∀ e ∈ ts.active, e.2.1 ≤ ts.cumulative) →
      ∀ n ∈ (msgs.foldl (stepMsg tpb idx) (ps, ts)).1.notes,
        n.start_time ≤ n.end_time := by
  intro msgs
  induction msgs with
  | nil => intro ps ts _ hnotes _; simpa using hnotes
  | cons m ms ih =>
      intro ps ts hdelta hnotes hact
      rw [List.foldl_cons]
      have hstep := stepMsg_inv tpb idx ps ts m
        (hdelta m (List.mem_cons_self _ _)) hnotes hact
      rcases hpair : stepMsg tpb idx (ps, ts) m with ⟨ps2, ts2⟩
      rw [hpair] at hstep
      exact ih ps2 ts2 (fun x hx => hdelta x (List.mem_cons_of_mem _ hx))
        hstep.1 hstep.2

lemma runTracks_inv (tpb : Nat) :
    ∀ (tracks : List (List Msg)) (idx : Nat) (ps : ParseState),
      (∀ tr ∈ tracks, ∀ m ∈ tr, 0 ≤ m.time) →
      (∀ n ∈ ps.notes, n.start_time ≤ n.end_time) →
      ∀ n ∈ (runTracks tpb idx ps tracks).notes, n.start_time ≤ n.end_time := by
  intro tracks
  induction tracks with
  | nil => intro idx ps _ hnotes; simpa [runTracks] using hnotes
  | cons t ts ih =>
      intro idx ps hdelta hnotes
      show ∀ n ∈ (runTracks tpb (idx + 1) (runTrack tpb idx ps t) ts).notes, _
      refine ih (idx + 1) _ (fun tr htr => hdelta tr (List.mem_cons_of_mem _ htr)) ?_
      exact foldl_stepMsg_inv tpb idx t ps ⟨0, []⟩
        (hdelta t (List.mem_cons_self _ _)) hnotes (by simp)

lemma trackEmits_off_tempo (tpb idx : Nat) :
    ∀ (msgs : List Msg) (tempo : Nat) (cum : Int) (act : ActiveList),
      ∀ n ∈ trackEmits tpb idx tempo cum act msgs,
        ∃ pre m post s,
          msgs = pre ++ m :: post
          ∧ isOffFor n.note n.channel m = true
          ∧ n.start_time = ticksToMs tpb (trackTempo tempo pre) s
          ∧ n.end_time = ticksToMs tpb (trackTempo tempo pre)
              (cum + ((pre.map Msg.time).sum + m.time)) := by
  intro msgs
  induction msgs with
  | nil => intro tempo cum act; simp [trackEmits]
  | cons m0 ms ih =>
      intro tempo cum act n hn
      obtain ⟨k, time⟩ := m0
      cases k with
      | set_tempo t =>
          simp only [trackEmits] at hn
          obtain ⟨pre, m, post, s, h1, h2, h3, h4⟩ := ih t (cum + time) act n hn
          refine ⟨⟨MsgKind.set_tempo t, time⟩ :: pre, m, post, s, by rw [h1, List.cons_append], h2, ?_, ?_⟩
          · simpa [trackTempo] using h3
          · rw [h4]
            simp only [trackTempo, List.map_cons, List.sum_cons]
            congr 1
            omega
      | meta =>
          simp only [trackEmits] at hn
          obtain ⟨pre, m, post, s, h1, h2, h3, h4⟩ := ih tempo (cum + time) act n hn
          refine ⟨⟨MsgKind.meta, time⟩ :: pre, m, post, s, by rw [h1, List.cons_append], h2, ?_, ?_⟩
          · simpa [trackTempo] using h3
          · rw [h4]
            simp only [trackTempo, List.map_cons, List.sum_cons]
            congr 1
            omega
      | note_on note ch vel =>
          by_cases hv : vel > 0
          · simp only [trackEmits, if_pos hv] at hn
            obtain ⟨pre, m, post, s, h1, h2, h3, h4⟩ :=
              ih tempo (cum + time) (insertActive (note, ch) (cum + time, vel) act) n hn
            refine ⟨⟨MsgKind.note_on note ch vel, time⟩ :: pre, m, post, s,
              by rw [h1, List.cons_append], h2, ?_, ?_⟩
            · simpa [trackTempo] using h3
            · rw [h4]
              simp only [trackTempo, List.map_cons, List.sum_cons]
              congr 1
              omega
          · cases hl : lookupActive (note, ch) act with
            | none =>
                simp only [trackEmits, if_neg hv, hl] at hn
                obtain ⟨pre, m, post, s, h1, h2, h3, h4⟩ := ih tempo (cum + time) act n hn
                refine ⟨⟨MsgKind.note_on note ch vel, time⟩ :: pre, m, post, s,
                  by rw [h1, List.cons_append], h2, ?_, ?_⟩
                · simpa [trackTempo] using h3
                · rw [h4]
                  simp only [trackTempo, List.map_cons, List.sum_cons]
                  congr 1
                  omega
            | some sv =>
                obtain ⟨s0, v⟩ := sv
                simp only [trackEmits, if_neg hv, hl] at hn
                rcases List.mem_cons.mp hn with rfl | h
                · have hv0 : vel = 0 := by omega
                  refine ⟨[], ⟨MsgKind.note_on note ch vel, time⟩, ms, s0, rfl, ?_, ?_, ?_⟩
                  · simp [isOffFor, mkNote, hv0]
                  · simp [trackTempo, mkNote]
                  · simp only [trackTempo, List.map_nil, List.sum_nil, mkNote]
                    congr 1
                    omega
                · obtain ⟨pre, m, post, s, h1, h2, h3, h4⟩ :=
                    ih tempo (cum + time) (eraseActive (note, ch) act) n h
                  refine ⟨⟨MsgKind.note_on note ch vel, time⟩ :: pre, m, post, s,
                    by rw [h1, List.cons_append], h2, ?_, ?_⟩
                  · simpa [trackTempo] using h3
                  · rw [h4]
                    simp only [trackTempo, List.map_cons, List.sum_cons]
                    congr 1
                    omega
      | note_off note ch vel =>
          cases hl : lookupActive (note, ch) act with
          | none =>
              simp only [trackEmits, hl] at hn
              obtain ⟨pre, m, post, s, h1, h2, h3, h4⟩ := ih tempo (cum + time) act n hn
              refine ⟨⟨MsgKind.note_off note ch vel, time⟩ :: pre, m, post, s,
                by rw [h1, List.cons_append], h2, ?_, ?_⟩
              · simpa [trackTempo] using h3
              · rw [h4]
                simp only [trackTempo, List.map_cons, List.sum_cons]
                congr 1
                omega
          | some sv =>
              obtain ⟨s0, v⟩ := sv
              simp only [trackEmits, hl] at hn
              rcases List.mem_cons.mp hn with rfl | h
              · refine ⟨[], ⟨MsgKind.note_off note ch vel, time⟩, ms, s0, rfl, ?_, ?_, ?_⟩
                · simp [isOffFor, mkNote]
                · simp [trackTempo, mkNote]
                · simp only [trackTempo, List.map_nil, List.sum_nil, mkNote]
                  congr 1
                  omega
              · obtain ⟨pre, m, post, s, h1, h2, h3, h4⟩ :=
                  ih tempo (cum + time) (eraseActive (note, ch) act) n h
                refine ⟨⟨MsgKind.note_off note ch vel, time⟩ :: pre, m, post, s,
                  by rw [h1, List.cons_append], h2, ?_, ?_⟩
                · simpa [trackTempo] using h3
                · rw [h4]
                  simp only [trackTempo, List.map_cons, List.sum_cons]
                  congr 1
                  omega

lemma runTracks_off_tempo (tpb : Nat) :
    ∀ (tracks : List (List Msg)) (idx : Nat) (ps : ParseState),
      ∀ n ∈ (runTracks tpb idx ps tracks).notes,
        n ∈ ps.notes ∨
        ∃ ts1 tr ts2 pre m post s,
          tracks = ts1 ++ tr :: ts2
          ∧ tr = pre ++ m :: post
          ∧ isOffFor n.note n.channel m = true
          ∧ n.start_time
              = ticksToMs tpb (trackTempo (ts1.foldl trackTempo ps.tempo) pre) s
          ∧ n.end_time
              = ticksToMs tpb (trackTempo (ts1.foldl trackTempo ps.tempo) pre)
                  ((pre.map Msg.time).sum + m.time) := by
  intro tracks
  induction tracks with
  | nil => intro idx ps n hn; exact Or.inl (by simpa [runTracks] using hn)
  | cons t rest ih =>
      intro idx ps n hn
      rcases ih (idx + 1) (runTrack tpb idx ps t) n hn with h | h
      · rw [runTrack_notes] at h
        rcases List.mem_append.mp h with h | h
        · exact Or.inl h
        · obtain ⟨pre, m, post, s, h1, h2, h3, h4⟩ :=
            trackEmits_off_tempo tpb idx t ps.tempo 0 [] n h
          refine Or.inr ⟨[], t, rest, pre, m, post, s, rfl, h1, h2, h3, ?_⟩
          rw [h4]
          congr 1
          omega
      · obtain ⟨ts1, tr, ts2, pre, m, post, s, h1, h2, h3, h4, h5⟩ := h
        refine Or.inr ⟨t :: ts1, tr, ts2, pre, m, post, s,
          by rw [h1, List.cons_append], h2, h3, ?_, ?_⟩
        · rw [h4, List.foldl_cons, runTrack_tempo]
        · rw [h5, List.foldl_cons, runTrack_tempo]

lemma trigRun_stopped (start_t end_t : ℚ) :
    ∀ (ts : List ℚ) (p s : Nat),
      trigRun start_t end_t ⟨PlayFlag.stopped, p, s⟩ ts = ⟨PlayFlag.stopped, p, s⟩ := by
  intro ts
  induction ts with
  | nil => intro p s; rfl
  | cons t ts ih =>
      intro p s
      show trigRun start_t end_t (trigStep start_t end_t ⟨PlayFlag.stopped, p, s⟩ t) ts = _
      have hstep : trigStep start_t end_t ⟨PlayFlag.stopped, p, s⟩ t
          = ⟨PlayFlag.stopped, p, s⟩ := by
        simp [trigStep]
      rw [hstep, ih]

lemma trigRun_sounding_stop (start_t end_t : ℚ) :
    ∀ (l : List ℚ) (p s : Nat), (∃ t ∈ l, end_t ≤ t) →
      trigRun start_t end_t ⟨PlayFlag.sounding, p, s⟩ l
        = ⟨PlayFlag.stopped, p, s + 1⟩ := by
  intro l
  induction l with
  | nil => intro p s h; simp at h
  | cons t ts ih =>
      intro p s h
      show trigRun start_t end_t (trigStep start_t end_t ⟨PlayFlag.sounding, p, s⟩ t) ts = _
      by_cases hstop : end_t ≤ t
      · have hstep : trigStep start_t end_t ⟨PlayFlag.sounding, p, s⟩ t
            = ⟨PlayFlag.stopped, p, s + 1⟩ := by
          simp [trigStep, hstop]
        rw [hstep, trigRun_stopped]
      · have hstep : trigStep start_t end_t ⟨PlayFlag.sounding, p, s⟩ t
            = ⟨PlayFlag.sounding, p, s⟩ := by
          simp [trigStep, hstop]
        rw [hstep]
        apply ih
        rcases h with ⟨x, hx, hxe⟩
        rcases List.mem_cons.mp hx with rfl | hx
        · exact absurd hxe hstop
        · exact ⟨x, hx, hxe⟩

lemma trigRun_once (start_t end_t : ℚ) :
    ∀ (l₁ : List ℚ) (x : ℚ) (l₂ : List ℚ) (y : ℚ) (l₃ : List ℚ) (p s : Nat),
      start_t ≤ x → x ≤ start_t + 50 → end_t ≤ y →
      trigRun start_t end_t ⟨PlayFlag.absent, p, s⟩ (l₁ ++ x :: l₂ ++ y :: l₃)
        = ⟨PlayFlag.stopped, p + 1, s + 1⟩ := by
  intro l₁
  induction l₁ with
  | nil =>
      intro x l₂ y l₃ p s hx1 hx2 hy
      show trigRun start_t end_t
        (trigStep start_t end_t ⟨PlayFlag.absent, p, s⟩ x) (l₂ ++ y :: l₃) = _
      have hstep : trigStep start_t end_t ⟨PlayFlag.absent, p, s⟩ x
          = ⟨PlayFlag.sounding, p + 1, s⟩ := by
        simp [trigStep, hx1, hx2]
      rw [hstep]
      exact trigRun_sounding_stop start_t end_t _ _ _
        ⟨y, List.mem_append_right _ (List.mem_cons_self _ _), hy⟩
  | cons t l₁' ih =>
      intro x l₂ y l₃ p s hx1 hx2 hy
      show trigRun start_t end_t
        (trigStep start_t end_t ⟨PlayFlag.absent, p, s⟩ t) (l₁' ++ x :: l₂ ++ y :: l₃) = _
      by_cases hw : start_t ≤ t ∧ t ≤ start_t + 50
      · have hstep : trigStep start_t end_t ⟨PlayFlag.absent, p, s⟩ t
            = ⟨PlayFlag.sounding, p + 1, s⟩ := by
          simp [trigStep, hw.1, hw.2]
        rw [hstep]
        refine trigRun_sounding_stop start_t end_t _ _ _ ⟨y, ?_, hy⟩
        simp
      · have hstep : trigStep start_t end_t ⟨PlayFlag.absent, p, s⟩ t
            = ⟨PlayFlag.absent, p, s⟩ := by
          rcases not_and_or.mp hw with h | h <;> simp [trigStep, h]
        rw [hstep]
        exact ih x l₂ y l₃ p s hx1 hx2 hy

/-- Claim C1: for ticks-per-beat 480 and the default constant tempo of
500000 µs/beat, a file with note A (pitch 60, ticks 0 to 480) and note B
(pitch 64, ticks 480 to 960) parses to exactly two intervals, A spanning
0 to 500 ms and B spanning 500 to 1000 ms, with total duration 1000 ms and
the list sorted with A before B. -/
theorem parse_two_note_scenario :
    parse 480
        [[⟨MsgKind.note_on 60 0 100, 0⟩, ⟨MsgKind.note_off 60 0 100, 480⟩,
          ⟨MsgKind.note_on 64 0 100, 0⟩, ⟨MsgKind.note_off 64 0 100, 480⟩]]
      = { notes := [⟨60, 100, 0, 500, 0, Hand.right, 0⟩,
                    ⟨64, 100, 500, 1000, 0, Hand.right, 0⟩],
          total_time := 1000 } := by
  norm_num [parse, runTracks, runTrack, stepMsg, closeNote, mkNote, ticksToMs,
    channelHand, insertActive, lookupActive, eraseActive, sortNotes, insertNote]

/-- Claim C2, counterexample: the running tempo is NOT re-seeded at the
start of each track.  A set_tempo 250000 event that is the only content of
track 0 changes the conversion of the note in track 1 (end time 250 ms),
whereas without that event the same note converts with the default tempo
(end time 500 ms).  This refutes the claim that a tempo change in one track
cannot affect notes of a later track. -/
theorem tempo_carries_across_tracks_cex :
    (parse 480
        [[⟨MsgKind.set_tempo 250000, 0⟩],
         [⟨MsgKind.note_on 60 0 100, 0⟩, ⟨MsgKind.note_off 60 0 100, 480⟩]]).notes
      = [⟨60, 100, 0, 250, 0, Hand.right, 1⟩]
    ∧ (parse 480
        [[],
         [⟨MsgKind.note_on 60 0 100, 0⟩, ⟨MsgKind.note_off 60 0 100, 480⟩]]).notes
      = [⟨60, 100, 0, 500, 0, Hand.right, 1⟩] := by
  constructor <;>
    norm_num [parse, runTracks, runTrack, stepMsg, closeNote, mkNote, ticksToMs,
      channelHand, insertActive, lookupActive, eraseActive, sortNotes, insertNote]

/-- Claim C2, amended: each track scan starts with the absolute-tick
counter at zero and an empty pending-note table, and the notes a track
emits depend on the earlier state only through the incoming tempo; but the
running tempo is not re-seeded per track: it enters each track as the value
left by the previous tracks (seeded 500000 only once, at parser
construction), so a tempo change in one track does affect later tracks. -/
theorem track_scan_tick_reset_tempo_carry :
    (∀ (tpb idx : Nat) (ps : ParseState) (track : List Msg),
      (runTrack tpb idx ps track).notes
          = ps.notes ++ trackEmits tpb idx ps.tempo 0 [] track
        ∧ (runTrack tpb idx ps track).tempo = trackTempo ps.tempo track)
    ∧ ∀ (tpb idx : Nat) (ps : ParseState) (tracks : List (List Msg)),
        (runTracks tpb idx ps tracks).tempo = tracks.foldl trackTempo ps.tempo :=
  ⟨fun tpb idx ps track => ⟨runTrack_notes tpb idx ps track, runTrack_tempo tpb idx ps track⟩,
   fun tpb idx ps tracks => runTracks_tempo tpb tracks idx ps⟩

/-- Claim C3: every parsed note is located at an
actual note-off message m of its track (tracks = ts1 ++ tr :: ts2 and
tr = pre ++ m :: post), and BOTH endpoints are converted by
ticksToMs with the single computed tempo value in effect at the moment m is
processed, namely trackTempo applied to the seed 500000 threaded through
all earlier tracks and through the prefix pre of the current track; the end
tick is the delta sum up to and including m. -/
theorem interval_endpoints_single_tempo :
    (∀ (tpb : Nat) (tracks : List (List Msg)) (n : Note),
      n ∈ (parse tpb tracks).notes →
      ∃ ts1 tr ts2 pre m post s,
        tracks = ts1 ++ tr :: ts2
        ∧ tr = pre ++ m :: post
        ∧ isOffFor n.note n.channel m = true
        ∧ n.start_time
            = ticksToMs tpb (trackTempo (ts1.foldl trackTempo 500000) pre) s
        ∧ n.end_time
            = ticksToMs tpb (trackTempo (ts1.foldl trackTempo 500000) pre)
                ((pre.map Msg.time).sum + m.time))
    ∧ parse 480
        [[⟨MsgKind.note_on 60 0 100, 480⟩, ⟨MsgKind.set_tempo 250000, 240⟩,
          ⟨MsgKind.note_off 60 0 100, 240⟩]]
      = { notes := [⟨60, 100, 250, 500, 0, Hand.right, 0⟩], total_time := 500 } := by
  constructor
  · intro tpb tracks n hn
    simp only [parse] at hn
    rw [mem_sortNotes] at hn
    rcases runTracks_off_tempo tpb tracks 0 ⟨500000, [], 0⟩ n hn with h | h
    · simp at h
    · exact h
  · norm_num [parse, runTracks, runTrack, stepMsg, closeNote, mkNote, ticksToMs,
      channelHand, insertActive, lookupActive, eraseActive, sortNotes, insertNote]

/-- Claim C3, witness: the universal part applied to the concrete
tempo-change example. -/
theorem interval_endpoints_single_tempo_witness :
    ((⟨60, 100, 250, 500, 0, Hand.right, 0⟩ : Note)
        ∈ (parse 480
            [[⟨MsgKind.note_on 60 0 100, 480⟩, ⟨MsgKind.set_tempo 250000, 240⟩,
              ⟨MsgKind.note_off 60 0 100, 240⟩]]).notes)
    ∧ ∃ ts1 tr ts2 pre m post s,
        [[(⟨MsgKind.note_on 60 0 100, 480⟩ : Msg), ⟨MsgKind.set_tempo 250000, 240⟩,
          ⟨MsgKind.note_off 60 0 100, 240⟩]] = ts1 ++ tr :: ts2
        ∧ tr = pre ++ m :: post
        ∧ isOffFor 60 0 m = true
        ∧ (250 : ℚ) = ticksToMs 480 (trackTempo (ts1.foldl trackTempo 500000) pre) s
        ∧ (500 : ℚ) = ticksToMs 480 (trackTempo (ts1.foldl trackTempo 500000) pre)
            ((pre.map Msg.time).sum + m.time) := by
  have hmem : (⟨60, 100, 250, 500, 0, Hand.right, 0⟩ : Note)
      ∈ (parse 480
          [[⟨MsgKind.note_on 60 0 100, 480⟩, ⟨MsgKind.set_tempo 250000, 240⟩,
            ⟨MsgKind.note_off 60 0 100, 240⟩]]).notes := by
    norm_num [parse, runTracks, runTrack, stepMsg, closeNote, mkNote, ticksToMs,
      channelHand, insertActive, lookupActive, eraseActive, sortNotes, insertNote]
  exact ⟨hmem, interval_endpoints_single_tempo.1 480 _ _ hmem⟩

/-- Claim C4, counterexample: over the interval 100 ms to 150 ms, the
strictly increasing frame-time sequence 0, 200 starts before the interval
and ends after it, yet the per-frame trigger update issues zero play and
zero stop calls, because no frame lands inside the 50 ms trigger window.
This refutes the claim that exactly one play and one stop are emitted
regardless of step size. -/
theorem trigger_coarse_frames_cex :
    List.Chain' (fun a b => a < b) [(0:ℚ), 200]
    ∧ (0:ℚ) < 100 ∧ (150:ℚ) < 200
    ∧ trigRun 100 150 ⟨PlayFlag.absent, 0, 0⟩ [0, 200] = ⟨PlayFlag.absent, 0, 0⟩ := by
  refine ⟨by norm_num [List.chain'_cons, List.chain'_singleton], by norm_num,
    by norm_num, ?_⟩
  norm_num [trigRun, trigStep]
  simp

/-- Claim C4, amended: for every interval and every strictly increasing
frame-time sequence that contains some sample x inside the 50 ms trigger
window after start_time and, later in the sequence, some sample y at or
past end_time, the per-frame trigger update emits exactly one play call and
exactly one stop call for that interval. -/
theorem trigger_window_sampled_once (start_t end_t : ℚ) (l₁ l₂ l₃ : List ℚ)
    (x y : ℚ)
    (_hchain : List.Chain' (fun a b => a < b) (l₁ ++ x :: l₂ ++ y :: l₃))
    (hx1 : start_t ≤ x) (hx2 : x ≤ start_t + 50) (hy : end_t ≤ y) :
    trigRun start_t end_t ⟨PlayFlag.absent, 0, 0⟩ (l₁ ++ x :: l₂ ++ y :: l₃)
      = ⟨PlayFlag.stopped, 1, 1⟩ :=
  trigRun_once start_t end_t l₁ x l₂ y l₃ 0 0 hx1 hx2 hy

/-- Claim C4, witness: the amended trigger theorem applied to the interval
100 ms to 150 ms and the frame times 0, 120, 200. -/
theorem trigger_window_sampled_once_witness :
    List.Chain' (fun a b => a < b) ([(0:ℚ)] ++ 120 :: [] ++ 200 :: [])
    ∧ (100:ℚ) ≤ 120 ∧ (120:ℚ) ≤ 100 + 50 ∧ (150:ℚ) ≤ 200
    ∧ trigRun 100 150 ⟨PlayFlag.absent, 0, 0⟩ ([(0:ℚ)] ++ 120 :: [] ++ 200 :: [])
      = ⟨PlayFlag.stopped, 1, 1⟩ := by
  refine ⟨by norm_num [List.chain'_cons, List.chain'_singleton], by norm_num,
    by norm_num, by norm_num, ?_⟩
  exact trigger_window_sampled_once 100 150 [0] [] [] 120 200
    (by norm_num [List.chain'_cons, List.chain'_singleton])
    (by norm_num) (by norm_num) (by norm_num)

/-- Claim C5: the code contradicts the specified invariant that changing
the speed while playing re-anchors the reference instant.  on_speed_change
stores the new speed without touching start_time, so at the same wall-clock
instant 1000 the position recomputed after changing speed from 1 to 2 jumps
from 1000 ms to 2000 ms. -/
theorem speed_change_position_jump :
    (update_playback
        ⟨[⟨60, 100, 0, 500, 0, Hand.right, 0⟩], 10000, 0, true, 1, 0⟩
        1000).current_time = 1000
    ∧ (update_playback
        (on_speed_change
          (update_playback
            ⟨[⟨60, 100, 0, 500, 0, Hand.right, 0⟩], 10000, 0, true, 1, 0⟩
            1000) 2)
        1000).current_time = 2000 := by
  constructor <;> norm_num [update_playback, on_speed_change, stop_playback]

/-- Claim C6: a note is in the render set returned by _get_visible_notes
exactly when it is in the note list and satisfies the window inequality
start_time ≤ current + 3000 and end_time ≥ current - 1000. -/
theorem visible_notes_window_iff :
    ∀ (notes : List Note) (current : ℚ) (n : Note),
      n ∈ get_visible_notes notes current ↔
        n ∈ notes ∧ n.start_time ≤ current + 3000 ∧ n.end_time ≥ current - 1000 := by
  intro notes current n
  by_cases h : notes = []
  · subst h; simp [get_visible_notes]
  · simp [get_visible_notes, h, List.mem_filter, and_assoc]

/-- Claim C7, counterexample: a failed load does not leave the whole
previous session state intact: load_midi_file stops playback first, so from
a playing state with position 500 the failed load returns a state with
playing false and position 0, different from the original. -/
theorem load_failure_resets_playback_cex :
    (load_midi_file
        ⟨[⟨60, 100, 0, 500, 0, Hand.right, 0⟩], 1000, 500, true, 1, 0⟩ none).1
      ≠ ⟨[⟨60, 100, 0, 500, 0, Hand.right, 0⟩], 1000, 500, true, 1, 0⟩ := by
  intro h
  have hplay := congrArg AppState.playing h
  simp [load_midi_file, stop_playback] at hplay

/-- Claim C7, amended: a failed load aborts and leaves the interval list
and the total duration unchanged (the interval list is never partially
replaced) and reports failure; but the playback state is not preserved:
playback is stopped before the load is attempted, leaving playing false and
the position reset to 0. -/
theorem load_failure_keeps_intervals :
    ∀ (s : AppState),
      (load_midi_file s none).1.notes = s.notes
      ∧ (load_midi_file s none).1.total_time = s.total_time
      ∧ (load_midi_file s none).1.playing = false
      ∧ (load_midi_file s none).1.current_time = 0
      ∧ (load_midi_file s none).2 = false := by
  intro s
  exact ⟨rfl, rfl, rfl, rfl, rfl⟩

/-- Claim C8: every emitted interval consumes a matching note-off, so for
any (pitch, channel) the number of parsed intervals with that key is at
most the number of note-off events (including note-on with velocity 0) for
that key summed over all tracks; a note-on left unclosed at end of track
therefore yields no interval, as the concrete second conjunct shows: the
unclosed note-on for pitch 60 emits nothing, only pitch 64 survives. -/
theorem parse_notes_bounded_by_noteoffs :
    (∀ (tpb p c : Nat) (tracks : List (List Msg)),
      (parse tpb tracks).notes.countP (noteKeyP p c)
        ≤ (tracks.map fun tr => tr.countP (isOffFor p c)).sum)
    ∧ (parse 480
        [[⟨MsgKind.note_on 60 0 100, 0⟩, ⟨MsgKind.note_on 64 0 100, 0⟩,
          ⟨MsgKind.note_off 64 0 100, 480⟩]]).notes.map Note.note = [64] := by
  constructor
  · intro tpb p c tracks
    have h := countP_runTracks_le tpb p c tracks 0 ⟨500000, [], 0⟩
    simp only [parse]
    rw [countP_sortNotes]
    simpa using h
  · norm_num [parse, runTracks, runTrack, stepMsg, closeNote, mkNote, ticksToMs,
      channelHand, insertActive, lookupActive, eraseActive, sortNotes, insertNote]

/-- Claim C9: for any input with non-negative delta times, positive
ticks-per-beat and positive tempo values, every parsed interval satisfies
end_time ≥ start_time. -/
theorem parse_end_ge_start :
    ∀ (tpb : Nat) (tracks : List (List Msg)),
      0 < tpb →
      (∀ tr ∈ tracks, ∀ m ∈ tr, 0 ≤ m.time ∧ tempoPos m = true) →
      ∀ n ∈ (parse tpb tracks).notes, n.start_time ≤ n.end_time := by
  intro tpb tracks _ hdelta n hn
  simp only [parse] at hn
  rw [mem_sortNotes] at hn
  exact runTracks_inv tpb tracks 0 ⟨500000, [], 0⟩
    (fun tr htr m hm => (hdelta tr htr m hm).1) (by simp) n hn

/-- Claim C9, witness: the invariant applied to the two-note example
file. -/
theorem parse_end_ge_start_witness :
    0 < 480
    ∧ (∀ tr ∈ [[(⟨MsgKind.note_on 60 0 100, 0⟩ : Msg), ⟨MsgKind.note_off 60 0 100, 480⟩]],
        ∀ m ∈ tr, 0 ≤ m.time ∧ tempoPos m = true)
    ∧ ∀ n ∈ (parse 480
        [[⟨MsgKind.note_on 60 0 100, 0⟩, ⟨MsgKind.note_off 60 0 100, 480⟩]]).notes,
        n.start_time ≤ n.end_time := by
  refine ⟨by norm_num, ?_, parse_end_ge_start 480 _ (by norm_num) ?_⟩ <;>
    simp [tempoPos]

/-- Claim C10: set_volume stores the clamped value max(0, min(1, v)); the
stored master volume always lies in the closed interval from 0 to 1. -/
theorem set_volume_clamps :
    ∀ (e : SoundEngineState) (v : ℚ),
      (set_volume e v).volume = max 0 (min 1 v)
      ∧ 0 ≤ (set_volume e v).volume ∧ (set_volume e v).volume ≤ 1 := by
  intro e v
  exact ⟨rfl, le_max_left 0 _, max_le (by norm_num) (min_le_left 1 v)⟩
